import Mathlib

/-!
Verification development for the core of the xrust XPath/XSLT library.

The Rust sources are embedded shallowly: structs and enums become Lean
structures and inductive types, pure functions become Lean functions,
fallible operations return Except or Option, and machinery that cannot
be carried over directly (reference counting, weak pointers) is made
explicit, with a comment at each such definition saying how.

Embedded source files: src/qname.rs, src/item.rs, src/parsexml.rs,
src/rctree.rs and src/parser/xml/attribute.rs.
-/

namespace XRust

/-! ## QualifiedName (src/qname.rs) -/

/-- Embeds struct QualifiedName (src/qname.rs lines 13-18).
The source field holding the presentational part of the name is called
pfx here; it stands for the field between nsuri and localname. -/
structure QualifiedName where
  nsuri : Option String
  pfx : Option String
  localname : String
deriving DecidableEq

/-- Embeds impl PartialEq for QualifiedName (src/qname.rs lines 64-82),
keeping the map_or_else branching of the source: only the namespace
URI and the local name take part. -/
def qnEq (a b : QualifiedName) : Bool :=
  match a.nsuri with
  | none =>
      match b.nsuri with
      | none => a.localname == b.localname
      | some _ => false
  | some ns =>
      match b.nsuri with
      | none => false
      | some ons => ns == ons && a.localname == b.localname

/-- Embeds impl Hash for QualifiedName (src/qname.rs lines 85-92) as
the sequence of strings fed to the hasher: the namespace URI when
present, then the local name. Two values that feed the hasher equal
streams receive equal hash values. -/
def qnHashStream (a : QualifiedName) : List String :=
  (match a.nsuri with
   | some ns => [ns]
   | none => []) ++ [a.localname]

/-! ## NodeType, Item and Sequence (src/item.rs) -/

/-- Embeds enum NodeType (src/item.rs lines 145-153). -/
inductive NodeTypeM where
  | document
  | element
  | text
  | attribute
  | comment
  | processingInstruction
  | unknown
deriving DecidableEq

/-- Embeds enum Item of D and N (src/item.rs lines 182-193). The
scalar payload type V and its boolean coercion are parameters because
enum Value lives in a module outside the embedded sources. -/
inductive Item (D N V : Type) where
  | document : D → Item D N V
  | node : N → Item D N V
  | function : Item D N V
  | value : V → Item D N V

/-- Embeds Item::to_bool (src/item.rs lines 235-242); vb is the
boolean coercion of the scalar value type. -/
def Item.to_bool {D N V : Type} (vb : V → Bool) : Item D N V → Bool
  | .document _ => true
  | .node _ => true
  | .function => false
  | .value v => vb v

/-- Embeds SequenceTrait::to_bool for Sequence, a vector of shared
Items (src/item.rs lines 98-113). The source tests len() == 0, matches
the first element against the Node variant, and then tests
len() == 1; the pattern match below is the same case split. -/
def seqToBool {D N V : Type} (vb : V → Bool) (s : List (Item D N V)) : Bool :=
  match s with
  | [] => false
  | i :: rest =>
      match i with
      | Item.node _ => true
      | _ => if rest.isEmpty then Item.to_bool vb i else false

/-- Whether an Item is the Node variant. -/
def Item.isNode {D N V : Type} : Item D N V → Bool
  | .node _ => true
  | _ => false

/-- The effective boolean value of a sequence as the specification
words it: empty gives false, a node-headed sequence gives true, a
singleton delegates to its item, every other sequence gives false. -/
def seqEBVSpec {D N V : Type} (vb : V → Bool) : List (Item D N V) → Bool
  | [] => false
  | i :: rest =>
      if i.isNode then true
      else
        match rest with
        | [] => Item.to_bool vb i
        | _ :: _ => false

/-! ## Claim theorems: names and sequences -/

/-- C3: for all QualifiedNames a and b, equality holds exactly when
the namespace URIs and the local names agree, independent of the
presentational part; and equal names feed the hasher equal streams. -/
theorem qname_eq_hash (a b : QualifiedName) :
    (qnEq a b = true ↔ (a.nsuri = b.nsuri ∧ a.localname = b.localname)) ∧
    (qnEq a b = true → qnHashStream a = qnHashStream b) := by
  constructor
  · unfold qnEq
    cases ha : a.nsuri <;> cases hb : b.nsuri <;>
      simp [ha, hb, Bool.and_eq_true, beq_iff_eq]
  · intro h
    unfold qnEq at h
    unfold qnHashStream
    cases ha : a.nsuri <;> cases hb : b.nsuri <;>
      simp [ha, hb, Bool.and_eq_true, beq_iff_eq] at h ⊢ <;> simp [h]

/-- Witness for C3: a concrete pair differing only in the
presentational part is equal and feeds the hasher the same stream. -/
theorem qname_eq_hash_witness :
    qnHashStream ⟨some "u", some "x", "foo"⟩ = qnHashStream ⟨some "u", some "y", "foo"⟩ :=
  (qname_eq_hash ⟨some "u", some "x", "foo"⟩ ⟨some "u", some "y", "foo"⟩).2 (by decide)

/-- C4: the effective boolean value of a sequence follows the
specification exactly: false on the empty sequence, true when the
first item is a node, the single item's own value on a singleton, and
false otherwise; the computation is total, so no error is raised. -/
theorem seq_ebv_spec {D N V : Type} (vb : V → Bool) (s : List (Item D N V)) :
    seqToBool vb s = seqEBVSpec vb s := by
  cases s with
  | nil => rfl
  | cons i rest =>
      cases i <;> cases rest <;>
        simp [seqToBool, seqEBVSpec, Item.isNode, List.isEmpty]

/-! ## Attribute value normalisation (src/parser/xml/attribute.rs) -/

/-- Embeds the ParseError variants that attribute.rs constructs:
NotWellFormed, Validation with row and column, MissingNameSpace. -/
inductive ParseErrorM where
  | notWellFormed
  | validation : Nat → Nat → ParseErrorM
  | missingNameSpace
deriving DecidableEq

/-- Rust str::replace applied at a one-character pattern with a
one-character replacement, written over the character list: every
occurrence of the pattern becomes the replacement. -/
def strReplace (s : List Char) (pat rep : Char) : List Char :=
  s.map (fun c => if c = pat then rep else c)

/-- Embeds the normalisation chain of attribute_value
(src/parser/xml/attribute.rs lines 141-145): the assembled pieces are
concatenated and the replace calls are applied in source order, line
feed, carriage return, tab, then line feed again. -/
def attrNormalize (pieces : List (List Char)) : List Char :=
  strReplace (strReplace (strReplace (strReplace pieces.join '\n' ' ') '\r' ' ') '\t' ' ') '\n' ' '

/-- Embeds the tail of attribute_value (src/parser/xml/attribute.rs
lines 146-153): the source binds the normalised value, rejects it as
not well formed when it contains a NEL character, and returns it
otherwise. -/
def attrValueResult (pieces : List (List Char)) : Except ParseErrorM (List Char) :=
  if (attrNormalize pieces).contains '\u0085' then Except.error ParseErrorM.notWellFormed
  else Except.ok (attrNormalize pieces)

/-- The per-character normalisation the claim describes: carriage
return, line feed and tab each become one space, everything else is
kept. -/
def normChar (c : Char) : Char :=
  if c = '\r' ∨ c = '\n' ∨ c = '\t' then ' ' else c

theorem attrNormalize_eq_map (pieces : List (List Char)) :
    attrNormalize pieces = pieces.join.map normChar := by
  unfold attrNormalize strReplace
  simp only [List.map_map]
  have h : ∀ c : Char,
      ((fun c => if c = '\n' then ' ' else c) ∘ (fun c => if c = '\t' then ' ' else c) ∘
        (fun c => if c = '\r' then ' ' else c) ∘ fun c => if c = '\n' then ' ' else c) c
        = normChar c := by
    intro c
    simp only [Function.comp, normChar]
    by_cases h1 : c = '\n' <;> by_cases h2 : c = '\r' <;> by_cases h3 : c = '\t' <;>
      simp [h1, h2, h3]
  exact List.map_congr_left (fun c _ => h c)

/-- C5: when an attribute value parses successfully, the resulting
value is the assembled value with every carriage return, line feed and
tab turned into exactly one space: the value equals the characterwise
normalisation (so the length is unchanged and each such character
becomes a single space), and no carriage return, line feed or tab
remains. -/
theorem attr_value_normalisation (pieces : List (List Char)) (r : List Char)
    (h : attrValueResult pieces = Except.ok r) :
    r = pieces.join.map normChar ∧
    r.length = pieces.join.length ∧
    ∀ c ∈ r, c ≠ '\r' ∧ c ≠ '\n' ∧ c ≠ '\t' := by
  unfold attrValueResult at h
  by_cases hn : ((attrNormalize pieces).contains '\u0085') = true
  · rw [if_pos hn] at h
    exact absurd h (by simp)
  · rw [if_neg hn] at h
    have hr : r = pieces.join.map normChar := by
      rw [← attrNormalize_eq_map]
      exact (Except.ok.inj h).symm
    refine ⟨hr, ?_, ?_⟩
    · rw [hr, List.length_map]
    · intro c hc
      rw [hr] at hc
      rcases List.mem_map.mp hc with ⟨d, _, hd⟩
      subst hd
      unfold normChar
      by_cases h1 : d = '\r' <;> by_cases h2 : d = '\n' <;> by_cases h3 : d = '\t' <;>
        simp [h1, h2, h3]

/-- Witness for C5: a concrete attribute value containing a carriage
return, a line feed and a tab, written literally, normalises to single
spaces. -/
theorem attr_value_normalisation_witness :
    (['a', ' ', 'b', ' ', ' ', 'c'] : List Char) =
      ([['a', '\r'], ['b', '\n', '\t', 'c']] : List (List Char)).join.map normChar :=
  (attr_value_normalisation [['a', '\r'], ['b', '\n', '\t', 'c']]
    ['a', ' ', 'b', ' ', ' ', 'c'] (by rfl)).1

/-! ## Errors and the build phase tree (src/rctree.rs) -/

/-- Embeds enum ErrorKind from crate xdmerror. Modelled from the spec:
the error kinds form the closed set of section 7; the embedded sources
construct the Unknown, TypeError and ParseError kinds. -/
inductive ErrorKind where
  | notWellFormed
  | validation
  | missingNamespace
  | parseError
  | typeError
  | mutation
  | unknown
  | terminated
deriving DecidableEq

/-- Embeds struct Error from crate xdmerror as used by the embedded
sources: a kind and a message. -/
structure ErrorM where
  kind : ErrorKind
  message : String
deriving DecidableEq

/-- Embeds enum Value restricted to its string variant, the only
variant the embedded sources construct (Value::String and the empty
Value::from of a string literal). -/
inductive ValueM where
  | str : String → ValueM
deriving DecidableEq

/-- Embeds enum DTDDecl (src/rctree.rs lines 396-398): a general
entity with its name and raw replacement text. -/
inductive DTDDeclM where
  | generalEntity : QualifiedName → String → DTDDeclM
deriving DecidableEq

/-- Embeds struct ANode (src/rctree.rs lines 159-175): node type,
ordered children, attributes keyed by name, optional name, value,
processing instruction target, DTD declaration and entity reference
target. -/
inductive ANodeM where
  | mk (node_type : NodeTypeM) (children : List ANodeM)
       (attributes : List (QualifiedName × ANodeM))
       (name : Option QualifiedName) (value : Option ValueM)
       (pi_name : Option String) (dtd : Option DTDDeclM)
       (reference : Option QualifiedName) : ANodeM

def ANodeM.node_type : ANodeM → NodeTypeM
  | .mk t _ _ _ _ _ _ _ => t

def ANodeM.children : ANodeM → List ANodeM
  | .mk _ c _ _ _ _ _ _ => c

def ANodeM.name : ANodeM → Option QualifiedName
  | .mk _ _ _ n _ _ _ _ => n

def ANodeM.value : ANodeM → Option ValueM
  | .mk _ _ _ _ v _ _ _ => v

def ANodeM.pi_name : ANodeM → Option String
  | .mk _ _ _ _ _ p _ _ => p

def ANodeM.dtd : ANodeM → Option DTDDeclM
  | .mk _ _ _ _ _ _ d _ => d

def ANodeM.reference : ANodeM → Option QualifiedName
  | .mk _ _ _ _ _ _ _ r => r

/-- The node with its child list replaced. -/
def ANodeM.withChildren : ANodeM → List ANodeM → ANodeM
  | .mk t _ a n v p d r, cs => .mk t cs a n v p d r

/-- Embeds RWNode::push for RANode (src/rctree.rs lines 284-293). The
source calls Rc::get_mut, which yields mutable access exactly when the
Rc is uniquely held, that is when no other strong or weak reference to
the node exists; that condition is the explicit boolean uniquelyHeld
here. On unique hold the child is appended; otherwise the source
returns an Error with ErrorKind::Unknown and the node is unchanged. -/
def pushRANode (uniquelyHeld : Bool) (p : ANodeM) (n : ANodeM) : Except ErrorM ANodeM :=
  if uniquelyHeld then
    Except.ok (p.withChildren (p.children ++ [n]))
  else
    Except.error ⟨ErrorKind.unknown, "unable to mutate node"⟩

/-- C8 (amended): push succeeds and appends the child exactly when the
node is uniquely held; when another reference exists the call fails
with an error of kind Unknown and message "unable to mutate node", and
the children are unchanged because no node is produced. -/
theorem push_unique_only (p n : ANodeM) :
    pushRANode true p n = Except.ok (p.withChildren (p.children ++ [n])) ∧
    pushRANode false p n = Except.error ⟨ErrorKind.unknown, "unable to mutate node"⟩ := by
  exact ⟨rfl, rfl⟩

/-- Counterexample for C8 as stated: at a concrete shared node the push
fails with an error whose kind is Unknown, which is not the Mutation
kind the claim names. -/
theorem push_shared_not_mutation_kind :
    pushRANode false
        (ANodeM.mk NodeTypeM.element [] [] (some ⟨none, none, "Test"⟩) none none none none)
        (ANodeM.mk NodeTypeM.text [] [] none (some (ValueM.str "x")) none none none)
      = Except.error ⟨ErrorKind.unknown, "unable to mutate node"⟩ ∧
    ErrorKind.unknown ≠ ErrorKind.mutation := by
  exact ⟨rfl, by decide⟩

/-! ## Attribute namespace binding (src/parser/xml/attribute.rs) -/

/-- The namespace map of the parser state, embedding HashMap from
String to String: insert overwrites the binding for its key. -/
abbrev NsMap := List (String × String)

def nsInsert (m : NsMap) (k v : String) : NsMap :=
  (k, v) :: m.filter (fun p => p.1 != k)

def nsLookup (m : NsMap) (k : String) : Option String :=
  (m.find? (fun p => p.1 == k)).map (fun p => p.2)

/-- The reserved namespace URI of the xml prefix, hard coded in
attributes() (src/parser/xml/attribute.rs lines 36 and 69). -/
def xmlNamespaceURI : String := "http://www.w3.org/XML/1998/namespace"

/-- Embeds the attribute RNode that attributes() handles: a node built
by NodeBuilder with node type Attribute, a qualified name and a string
value; node.to_string() on an attribute node returns that value.
set_nsuri is modelled from the spec (crate intmuttree is outside the
embedded sources): it stores the resolved namespace URI into the name
of the node. -/
structure AttrNode where
  name : QualifiedName
  value : String
deriving DecidableEq

def AttrNode.set_nsuri (a : AttrNode) (u : String) : AttrNode :=
  { a with name := { a.name with nsuri := some u } }

/-- Whether the attribute is a namespace declaration: its name uses
the xmlns prefix or its local name is xmlns (the test of both loops of
attributes()). -/
def isNsDecl (a : AttrNode) : Bool :=
  (a.name.pfx == some "xmlns") || (a.name.localname == "xmlns")

/-- Embeds the first loop of attributes()
(src/parser/xml/attribute.rs lines 26-58): reject a redefinition of
xmlns, reject a rebinding of the xml prefix away from the reserved
URI, record each namespace declaration in the map keyed by its local
name, and reject an xml space attribute whose value is neither Default
nor Preserve. Row and column come from the parser state. -/
def attrFirstPass (row col : Nat) : List AttrNode → NsMap → Except ParseErrorM NsMap
  | [], m => Except.ok m
  | node :: rest, m =>
      if (node.name.pfx == some "xmlns") && (node.name.localname == "xmlns") then
        Except.error ParseErrorM.notWellFormed
      else if (node.name.pfx == some "xmlns") && (node.name.localname == "xml")
              && (node.value != xmlNamespaceURI) then
        Except.error ParseErrorM.notWellFormed
      else
        let m1 := if (node.name.pfx == some "xmlns") || (node.name.localname == "xmlns")
                  then nsInsert m node.name.localname node.value else m
        if (node.name.pfx == some "xml") && (node.name.localname == "space")
           && !((node.value == "Default") || (node.value == "Preserve")) then
          Except.error (ParseErrorM.validation row col)
        else attrFirstPass row col rest m1

/-- Embeds the second loop of attributes()
(src/parser/xml/attribute.rs lines 62-79): skip namespace
declarations; for a remaining attribute with a prefix, the xml prefix
receives the reserved URI and any other prefix is looked up in the
newly installed map, a missing binding failing with
MissingNameSpace. -/
def attrSecondPass (namespaces : NsMap) : List AttrNode → Except ParseErrorM (List AttrNode)
  | [] => Except.ok []
  | node :: rest =>
      if (node.name.pfx != some "xmlns") && (node.name.localname != "xmlns") then
        match node.name.pfx with
        | some ns =>
            if ns == "xml" then
              match attrSecondPass namespaces rest with
              | Except.ok r => Except.ok (node.set_nsuri xmlNamespaceURI :: r)
              | Except.error e => Except.error e
            else
              match nsLookup namespaces ns with
              | none => Except.error ParseErrorM.missingNameSpace
              | some nsuri =>
                  match attrSecondPass namespaces rest with
                  | Except.ok r => Except.ok (node.set_nsuri nsuri :: r)
                  | Except.error e => Except.error e
        | none =>
            match attrSecondPass namespaces rest with
            | Except.ok r => Except.ok (node :: r)
            | Except.error e => Except.error e
      else attrSecondPass namespaces rest

/-- Embeds attributes() after the raw attribute list has been parsed
(src/parser/xml/attribute.rs lines 23-80): start from the innermost
map of the namespace stack, run the installation pass, push the new
map onto the stack, then run the resolution pass. Returns the updated
stack and the remaining attribute nodes. -/
def attributesPost (row col : Nat) (nsStack : List NsMap) (nodes : List AttrNode) :
    Except ParseErrorM (List NsMap × List AttrNode) :=
  match attrFirstPass row col nodes ((nsStack.getLast?).getD []) with
  | Except.error e => Except.error e
  | Except.ok m =>
      match attrSecondPass m nodes with
      | Except.error e => Except.error e
      | Except.ok res => Except.ok (nsStack ++ [m], res)

/-- Resolution of one attribute as the claim words it: the xml prefix
receives the reserved URI, any other prefix the URI the installed map
binds it to, and an unbound prefix has no resolution. -/
def resolveAttr (m : NsMap) (a : AttrNode) : Option AttrNode :=
  match a.name.pfx with
  | some p =>
      if p == "xml" then some (a.set_nsuri xmlNamespaceURI)
      else
        match nsLookup m p with
        | some u => some (a.set_nsuri u)
        | none => none
  | none => some a

/-- Resolution of a whole attribute list against the installed map, as
the claim words it: resolve each attribute in order, an unbound prefix
failing with MissingNameSpace. -/
def resolveAll (m : NsMap) : List AttrNode → Except ParseErrorM (List AttrNode)
  | [] => Except.ok []
  | a :: rest =>
      match resolveAttr m a with
      | none => Except.error ParseErrorM.missingNameSpace
      | some b =>
          match resolveAll m rest with
          | Except.ok r => Except.ok (b :: r)
          | Except.error e => Except.error e

theorem attrSecondPass_eq_resolveAll (m : NsMap) (ns : List AttrNode) :
    attrSecondPass m ns = resolveAll m (ns.filter (fun a => !(isNsDecl a))) := by
  induction ns with
  | nil => rfl
  | cons node rest ih =>
      by_cases hd : isNsDecl node = true
      · have hc : ((node.name.pfx != some "xmlns") && (node.name.localname != "xmlns")) = false := by
          unfold isNsDecl at hd
          rcases Bool.or_eq_true_iff.mp hd with h | h <;>
            simp only [beq_iff_eq] at h <;> simp [h]
        simp [attrSecondPass, List.filter, hd, hc, ih]
      · have hc : ((node.name.pfx != some "xmlns") && (node.name.localname != "xmlns")) = true := by
          unfold isNsDecl at hd
          simp only [Bool.or_eq_true_iff, not_or] at hd
          push_neg at hd
          simp only [Bool.and_eq_true, bne_iff_ne, ne_eq, beq_iff_eq]
          constructor
          · intro h; exact hd.1 (by simp [h])
          · intro h; exact hd.2 (by simp [h])
        simp only [attrSecondPass, hc, if_true]
        have hd' : isNsDecl node = false := by simp [hd]
        simp only [List.filter, hd', Bool.not_false, resolveAll, resolveAttr]
        cases hp : node.name.pfx with
        | none => simp [ih]
        | some p =>
            by_cases hx : (p == "xml") = true
            · simp [hx, ih]
            · simp only [hx, if_false, Bool.false_eq_true]
              cases hl : nsLookup m p with
              | none => simp
              | some u => simp [ih]

/-- C6: when the installation pass succeeds with map m, the attribute
parser resolves every remaining attribute against m — the map holding
every declaration of the start tag, those written after the attribute
included — with the xml prefix fixed to the reserved URI, and fails
with MissingNameSpace exactly when resolveAttr finds no binding. -/
theorem attributes_prefix_resolution (row col : Nat) (nsStack : List NsMap)
    (nodes : List AttrNode) (m : NsMap)
    (hm : attrFirstPass row col nodes ((nsStack.getLast?).getD []) = Except.ok m) :
    attributesPost row col nsStack nodes =
      match resolveAll m (nodes.filter (fun a => !(isNsDecl a))) with
      | Except.ok res => Except.ok (nsStack ++ [m], res)
      | Except.error e => Except.error e := by
  unfold attributesPost
  rw [hm]
  simp only [attrSecondPass_eq_resolveAll]
  cases resolveAll m (List.filter (fun a => !(isNsDecl a)) nodes) <;> rfl

/-- Witness for C6: a prefixed attribute written before the
declaration that binds its prefix still resolves, because the
installed map is built from the whole attribute list first. -/
theorem attributes_prefix_resolution_witness :
    attributesPost 0 0 []
        [⟨⟨none, some "foo", "a"⟩, "1"⟩, ⟨⟨none, some "xmlns", "foo"⟩, "u"⟩] =
      Except.ok ([[("foo", "u")]], [⟨⟨some "u", some "foo", "a"⟩, "1"⟩]) := by
  have h := attributes_prefix_resolution 0 0 []
      [⟨⟨none, some "foo", "a"⟩, "1"⟩, ⟨⟨none, some "xmlns", "foo"⟩, "u"⟩]
      [("foo", "u")] (by rfl)
  rw [h]
  rfl

theorem attrSecondPass_no_nsdecl (m : NsMap) (ns : List AttrNode) (res : List AttrNode)
    (h : attrSecondPass m ns = Except.ok res) :
    ∀ a ∈ res, a.name.pfx ≠ some "xmlns" ∧ a.name.localname ≠ "xmlns" := by
  induction ns generalizing res with
  | nil =>
      simp only [attrSecondPass, Except.ok.injEq] at h
      subst h; simp
  | cons node rest ih =>
      simp only [attrSecondPass] at h
      by_cases hc : ((node.name.pfx != some "xmlns") && (node.name.localname != "xmlns")) = true
      · have hne := hc
        simp only [Bool.and_eq_true, bne_iff_ne, ne_eq] at hne
        rw [if_pos hc] at h
        cases hp : node.name.pfx with
        | none =>
            rw [hp] at h
            cases hrec : attrSecondPass m rest with
            | error e => rw [hrec] at h; exact absurd h (by simp)
            | ok r =>
                rw [hrec] at h
                simp only [Except.ok.injEq] at h
                subst h
                intro a ha
                rcases List.mem_cons.mp ha with rfl | ha
                · exact ⟨by rw [hp]; simp, hne.2⟩
                · exact ih r hrec a ha
        | some p =>
            rw [hp] at h
            dsimp only at h
            by_cases hx : (p == "xml") = true
            · rw [if_pos hx] at h
              cases hrec : attrSecondPass m rest with
              | error e => rw [hrec] at h; exact absurd h (by simp)
              | ok r =>
                  rw [hrec] at h
                  simp only [Except.ok.injEq] at h
                  subst h
                  intro a ha
                  rcases List.mem_cons.mp ha with rfl | ha
                  · exact ⟨hne.1, hne.2⟩
                  · exact ih r hrec a ha
            · rw [if_neg hx] at h
              cases hl : nsLookup m p with
              | none => rw [hl] at h; exact absurd h (by simp)
              | some u =>
                  rw [hl] at h
                  cases hrec : attrSecondPass m rest with
                  | error e => rw [hrec] at h; exact absurd h (by simp)
                  | ok r =>
                      rw [hrec] at h
                      simp only [Except.ok.injEq] at h
                      subst h
                      intro a ha
                      rcases List.mem_cons.mp ha with rfl | ha
                      · exact ⟨hne.1, hne.2⟩
                      · exact ih r hrec a ha
      · rw [if_neg hc] at h
        exact ih res h

theorem nsLookup_insert_self (m : NsMap) (k v : String) :
    nsLookup (nsInsert m k v) k = some v := by
  simp [nsLookup, nsInsert, List.find?]

theorem find?_filter_ne (m : NsMap) (k k2 : String) (hk : k2 ≠ k) :
    (m.filter (fun p => p.1 != k)).find? (fun p => p.1 == k2) =
      m.find? (fun p => p.1 == k2) := by
  induction m with
  | nil => rfl
  | cons hd tl ih =>
      by_cases h1 : hd.1 = k
      · have h2 : (hd.1 == k2) = false := by
          simp only [beq_eq_false_iff_ne, ne_eq, h1]
          exact fun hq => hk hq.symm
        rw [List.filter_cons_of_neg (by simp [h1])]
        conv_rhs => rw [List.find?_cons]
        rw [h2, ih]
      · by_cases h2 : hd.1 = k2
        · have h2p : (hd.1 == k2) = true := by simp [h2]
          rw [List.filter_cons_of_pos (by simp [h1]),
            List.find?_cons, List.find?_cons, h2p]
        · have h2n : (hd.1 == k2) = false := by simp [h2]
          rw [List.filter_cons_of_pos (by simp [h1]),
            List.find?_cons, List.find?_cons, h2n, ih]

theorem nsLookup_insert_preserves (m : NsMap) (k v k2 : String)
    (h : (nsLookup m k2).isSome = true) :
    (nsLookup (nsInsert m k v) k2).isSome = true := by
  by_cases hk : k2 = k
  · subst hk
    rw [nsLookup_insert_self]
    rfl
  · unfold nsLookup nsInsert
    have hkk : (k == k2) = false := by simp; exact fun hq => hk hq.symm
    simp only [List.find?, hkk]
    rw [find?_filter_ne m k k2 hk]
    exact h

theorem attrFirstPass_mono (row col : Nat) (ns : List AttrNode) (m0 m : NsMap) (k : String)
    (h : attrFirstPass row col ns m0 = Except.ok m)
    (hk : (nsLookup m0 k).isSome = true) : (nsLookup m k).isSome = true := by
  induction ns generalizing m0 with
  | nil =>
      simp only [attrFirstPass, Except.ok.injEq] at h
      rw [← h]
      exact hk
  | cons node rest ih =>
      simp only [attrFirstPass] at h
      by_cases h1 : ((node.name.pfx == some "xmlns") && (node.name.localname == "xmlns")) = true
      · rw [if_pos h1] at h; exact absurd h (by simp)
      · rw [if_neg h1] at h
        by_cases h2 : ((node.name.pfx == some "xmlns") && (node.name.localname == "xml")
              && (node.value != xmlNamespaceURI)) = true
        · rw [if_pos h2] at h; exact absurd h (by simp)
        · rw [if_neg h2] at h
          by_cases h3 : ((node.name.pfx == some "xml") && (node.name.localname == "space")
               && !((node.value == "Default") || (node.value == "Preserve"))) = true
          · rw [if_pos h3] at h; exact absurd h (by simp)
          · rw [if_neg h3] at h
            by_cases h4 : ((node.name.pfx == some "xmlns") || (node.name.localname == "xmlns")) = true
            · rw [if_pos h4] at h
              exact ih _ h (nsLookup_insert_preserves m0 _ _ k hk)
            · rw [if_neg h4] at h
              exact ih _ h hk

theorem attrFirstPass_installs (row col : Nat) (ns : List AttrNode) (m0 m : NsMap)
    (h : attrFirstPass row col ns m0 = Except.ok m) :
    ∀ a ∈ ns, isNsDecl a = true → (nsLookup m a.name.localname).isSome = true := by
  induction ns generalizing m0 with
  | nil => simp
  | cons node rest ih =>
      intro a ha hdecl
      simp only [attrFirstPass] at h
      by_cases h1 : ((node.name.pfx == some "xmlns") && (node.name.localname == "xmlns")) = true
      · rw [if_pos h1] at h; exact absurd h (by simp)
      · rw [if_neg h1] at h
        by_cases h2 : ((node.name.pfx == some "xmlns") && (node.name.localname == "xml")
              && (node.value != xmlNamespaceURI)) = true
        · rw [if_pos h2] at h; exact absurd h (by simp)
        · rw [if_neg h2] at h
          by_cases h3 : ((node.name.pfx == some "xml") && (node.name.localname == "space")
               && !((node.value == "Default") || (node.value == "Preserve"))) = true
          · rw [if_pos h3] at h; exact absurd h (by simp)
          · rw [if_neg h3] at h
            rcases List.mem_cons.mp ha with rfl | ha2
            · have h4 : ((a.name.pfx == some "xmlns") || (a.name.localname == "xmlns")) = true := hdecl
              rw [if_pos h4] at h
              exact attrFirstPass_mono row col rest _ m _ h
                (by rw [nsLookup_insert_self]; rfl)
            · by_cases h4 : ((node.name.pfx == some "xmlns") || (node.name.localname == "xmlns")) = true
              · rw [if_pos h4] at h
                exact ih _ h a ha2 hdecl
              · rw [if_neg h4] at h
                exact ih _ h a ha2 hdecl

/-- C10: the attribute list the parser returns never contains a
namespace declaration — every attribute whose name has the xmlns
prefix or the xmlns local name is dropped — and each such declaration
has installed a binding for its local name in the map the parser
pushes onto the namespace stack. -/
theorem attributes_no_nsdecl (row col : Nat) (nsStack : List NsMap)
    (nodes : List AttrNode) (out : List NsMap × List AttrNode)
    (h : attributesPost row col nsStack nodes = Except.ok out) :
    (∀ a ∈ out.2, a.name.pfx ≠ some "xmlns" ∧ a.name.localname ≠ "xmlns") ∧
    (∀ a ∈ nodes, isNsDecl a = true →
       (nsLookup ((out.1.getLast?).getD []) a.name.localname).isSome = true) := by
  unfold attributesPost at h
  cases hf : attrFirstPass row col nodes ((nsStack.getLast?).getD []) with
  | error e => rw [hf] at h; exact absurd h (by simp)
  | ok m =>
      rw [hf] at h
      dsimp only at h
      cases hs : attrSecondPass m nodes with
      | error e => rw [hs] at h; exact absurd h (by simp)
      | ok res =>
          rw [hs] at h
          simp only [Except.ok.injEq] at h
          subst h
          constructor
          · exact attrSecondPass_no_nsdecl m nodes res hs
          · intro a ha hdecl
            have hlast : ((nsStack ++ [m]).getLast?).getD [] = m := by
              simp [List.getLast?_append]
            rw [hlast]
            exact attrFirstPass_installs row col nodes _ m hf a ha hdecl

/-- Witness for C10: with a namespace declaration followed by a plain
attribute, the returned list keeps only the plain attribute and the
installed map binds the declared name. -/
theorem attributes_no_nsdecl_witness :
    ((⟨⟨none, none, "b"⟩, "1"⟩ : AttrNode).name.pfx ≠ some "xmlns" ∧
      (⟨⟨none, none, "b"⟩, "1"⟩ : AttrNode).name.localname ≠ "xmlns") ∧
    (nsLookup (((([[("foo", "u")]] : List NsMap).getLast?).getD [])) "foo").isSome = true := by
  have h := attributes_no_nsdecl 0 0 []
      [⟨⟨none, some "xmlns", "foo"⟩, "u"⟩, ⟨⟨none, none, "b"⟩, "1"⟩]
      ([[("foo", "u")]], [⟨⟨none, none, "b"⟩, "1"⟩]) (by rfl)
  refine ⟨h.1 _ (by simp), ?_⟩
  exact h.2 ⟨⟨none, some "xmlns", "foo"⟩, "u"⟩ (by simp) (by rfl)

/-! ## The navigable tree (src/rctree.rs, BDoc and BNode) -/

/-- Embeds struct BNode (src/rctree.rs lines 511-519) as a tree: node
type, optional name and value, and the strong child list. The weak
document and parent back pointers of the source are positional and are
represented for the ancestor axis by LocNode below. -/
inductive BTreeM where
  | mk (node_type : NodeTypeM) (name : Option QualifiedName) (value : Option ValueM)
       (children : List BTreeM) : BTreeM

def BTreeM.node_type : BTreeM → NodeTypeM
  | .mk t _ _ _ => t

def BTreeM.name : BTreeM → Option QualifiedName
  | .mk _ n _ _ => n

def BTreeM.value : BTreeM → Option ValueM
  | .mk _ _ v _ => v

def BTreeM.children : BTreeM → List BTreeM
  | .mk _ _ _ c => c

mutual

/-- Size of a tree: the number of its nodes. -/
def treeSize : BTreeM → Nat
  | .mk _ _ _ cs => 1 + sizeForest cs

/-- Size of a forest: the sum of the sizes of its trees. -/
def sizeForest : List BTreeM → Nat
  | [] => 0
  | c :: rest => treeSize c + sizeForest rest

end

mutual

/-- Embeds fn descendant_add (src/rctree.rs lines 762-770): the vector
starts with the node itself, then each child in order contributes its
own descendant_add list. -/
def descendant_add : BTreeM → List BTreeM
  | .mk t nm v cs => .mk t nm v cs :: addForest cs

/-- The append loop of descendant_add over a child list. -/
def addForest : List BTreeM → List BTreeM
  | [] => []
  | c :: rest => descendant_add c ++ addForest rest

end

/-- Embeds Descendants::new (src/rctree.rs lines 746-761): the node
list is built by folding over the children, appending descendant_add
of each child to the accumulator. -/
def descendants (n : BTreeM) : List BTreeM :=
  n.children.foldl (fun acc c => acc ++ descendant_add c) []

/-- Induction over the tree with induction hypotheses for all
children. -/
theorem btree_ind (P : BTreeM → Prop)
    (h : ∀ t nm v cs, (∀ c ∈ cs, P c) → P (BTreeM.mk t nm v cs)) :
    ∀ n, P n
  | .mk t nm v cs => h t nm v cs (fun c hc => btree_ind P h c)
termination_by n => sizeOf n
decreasing_by
  have hlt := List.sizeOf_lt_of_mem hc
  simp only [BTreeM.mk.sizeOf_spec]
  omega

theorem foldl_append_descendant_add (cs : List BTreeM) :
    ∀ acc, cs.foldl (fun acc c => acc ++ descendant_add c) acc
      = acc ++ addForest cs := by
  induction cs with
  | nil =>
      intro acc
      simp [addForest]
  | cons c rest ih =>
      intro acc
      rw [List.foldl_cons, ih, addForest, List.append_assoc]

theorem descendants_eq_addForest (t : NodeTypeM) (nm : Option QualifiedName)
    (v : Option ValueM) (cs : List BTreeM) :
    descendants (BTreeM.mk t nm v cs) = addForest cs := by
  unfold descendants
  rw [foldl_append_descendant_add]
  rfl

theorem descendant_add_cons (n : BTreeM) :
    descendant_add n = n :: descendants n := by
  cases n with
  | mk t nm v cs => rw [descendant_add, descendants_eq_addForest]

theorem addForest_flatMap (cs : List BTreeM) :
    addForest cs = cs.flatMap (fun c => c :: descendants c) := by
  induction cs with
  | nil => rfl
  | cons c rest ih =>
      rw [addForest, List.flatMap_cons, ih, descendant_add_cons]

theorem descendant_add_length :
    ∀ n : BTreeM, (descendant_add n).length = treeSize n := by
  apply btree_ind
  intro t nm v cs ih
  rw [descendant_add, treeSize, List.length_cons]
  have hf : (addForest cs).length = sizeForest cs := by
    induction cs with
    | nil => rfl
    | cons c rest ihl =>
        rw [addForest, sizeForest, List.length_append]
        rw [ih c (by simp)]
        rw [ihl (fun d hd => ih d (by simp [hd]))]
  omega

theorem addForest_length (cs : List BTreeM) :
    (addForest cs).length = sizeForest cs := by
  induction cs with
  | nil => rfl
  | cons c rest ih =>
      rw [addForest, sizeForest, List.length_append, descendant_add_length c, ih]

/-- C7: the descendant iterator yields exactly the proper descendants
of the node in document order — for each child in stored order, the
child immediately followed by that child's own descendants — and the
length of the list is the number of proper descendants, so each is
produced exactly once. -/
theorem descend_iter_preorder (n : BTreeM) :
    descendants n = n.children.flatMap (fun c => c :: descendants c) ∧
    (descendants n).length + 1 = treeSize n := by
  cases n with
  | mk t nm v cs =>
      constructor
      · rw [descendants_eq_addForest, addForest_flatMap]
        rfl
      · rw [descendants_eq_addForest, treeSize, addForest_length]
        omega

/-! ## The ancestor axis (src/rctree.rs, Ancestors) -/

/-- A located node of a B document: the top level node list of the
document together with the child index path leading to the node.
BNode::from_anode hands every child a weak pointer to the node that
is being built around it and top level nodes no parent, so the parent
pointer of a located node reaches the location one step up, and a top
level node has none. -/
structure LocNode where
  top : List BTreeM
  path : List Nat

/-- Embeds one next() step of Iterator for Ancestors (src/rctree.rs
lines 718-735): follow the parent pointer; a top level node yields
none, matching both the node without a parent and the pointer that no
longer upgrades once the document is gone. -/
def parentOf (n : LocNode) : Option LocNode :=
  if n.path.isEmpty then none else some ⟨n.top, n.path.dropLast⟩

/-- Embeds the Ancestors iterator run to exhaustion: next() follows
parent pointers until none remains, collecting each ancestor in
order. -/
def ancestorsIter (n : LocNode) : List LocNode :=
  match h : parentOf n with
  | none => []
  | some p => p :: ancestorsIter p
termination_by n.path.length
decreasing_by
  unfold parentOf at h
  by_cases he : n.path.isEmpty
  · rw [if_pos he] at h; exact absurd h (by simp)
  · rw [if_neg he] at h
    simp only [Option.some.injEq] at h
    rw [← h]
    have : n.path ≠ [] := by simpa [List.isEmpty_iff] using he
    simp only [List.length_dropLast]
    have : 0 < n.path.length := List.length_pos.mpr this
    omega

/-- C9: the ancestor iterator of a located node yields exactly the
strictly enclosing locations, one per proper prefix of its path in
decreasing depth order; the chain is finite with length equal to the
depth of the node, and it ends at a top level location, whose parent
pointer is none. -/
theorem ancestor_iter_finite (tp : List BTreeM) (p : List Nat) :
    ancestorsIter ⟨tp, p⟩ =
      (List.range p.length).reverse.map (fun k => (⟨tp, p.take k⟩ : LocNode)) ∧
    (ancestorsIter ⟨tp, p⟩).length = p.length ∧
    (p ≠ [] → (ancestorsIter ⟨tp, p⟩).getLast? = some ⟨tp, []⟩ ∧
      parentOf ⟨tp, []⟩ = none) := by
  induction p using List.reverseRecOn with
  | nil =>
      refine ⟨by rw [ancestorsIter]; rfl, by rw [ancestorsIter]; rfl, by simp⟩
  | append_singleton q i ih =>
      have hstep : ancestorsIter ⟨tp, q ++ [i]⟩ = ⟨tp, q⟩ :: ancestorsIter ⟨tp, q⟩ := by
        have hp : parentOf ⟨tp, q ++ [i]⟩ = some ⟨tp, q⟩ := by
          simp [parentOf, List.dropLast_concat]
        rw [ancestorsIter]
        split
        · rename_i heq
          rw [hp] at heq
          exact absurd heq (by simp)
        · rename_i pp heq
          rw [hp] at heq
          simp only [Option.some.injEq] at heq
          rw [heq]
      have hlen : (q ++ [i]).length = q.length + 1 := by simp
      have htake : ∀ k ≤ q.length, (q ++ [i]).take k = q.take k := fun k hk =>
        List.take_append_of_le_length hk
      refine ⟨?_, ?_, ?_⟩
      · rw [hstep, ih.1, hlen]
        rw [List.range_succ, List.reverse_append]
        simp only [List.reverse_cons, List.reverse_nil, List.nil_append,
          List.singleton_append, List.map_cons]
        congr 1
        · rw [htake q.length (le_refl _), List.take_length]
        · apply List.map_congr_left
          intro k hk
          have hk2 : k < q.length := by
            simpa using List.mem_range.mp (List.mem_reverse.mp hk)
          rw [htake k (le_of_lt hk2)]
      · rw [hstep, List.length_cons, ih.2.1, hlen]
      · intro _
        refine ⟨?_, by rfl⟩
        rw [hstep]
        by_cases hq : q = []
        · subst hq
          rw [ancestorsIter]
          rfl
        · have hlast := (ih.2.2 hq).1
          cases hcs : ancestorsIter ⟨tp, q⟩ with
          | nil => rw [hcs] at hlast; exact absurd hlast (by simp)
          | cons a as =>
              rw [List.getLast?_cons_cons, ← hcs, hlast]

/-! ## The nom based XML parser (src/parsexml.rs) -/

/-- A nom parser over the remaining input: on success the rest of the
input and the parsed value, on failure none (the embedded grammar
raises only recoverable errors, which alt may catch). -/
def P (α : Type) : Type := List Char → Option (List Char × α)

/-- Sequential composition of parsers, the tuple combinator of nom
written with bind. -/
instance : Monad P where
  pure a := fun input => some (input, a)
  bind p f := fun input =>
    match p input with
    | none => none
    | some (rest, a) => f a rest

/-- Embeds nom tag: consume the literal and nothing else. The consumed
literal itself is returned by nom and discarded by every caller. -/
def tagP (s : List Char) : P Unit := fun input =>
  if s.isPrefixOf input then some (input.drop s.length, ()) else none

/-- A character of the nom multispace class. -/
def isMultispaceChar (c : Char) : Bool :=
  c = ' ' || c = '\t' || c = '\n' || c = '\r'

/-- Embeds nom multispace0: zero or more whitespace characters. -/
def multispace0 : P Unit := fun input =>
  some (input.dropWhile isMultispaceChar, ())

/-- Embeds nom multispace1: one or more whitespace characters. -/
def multispace1 : P Unit := fun input =>
  if (input.takeWhile isMultispaceChar).isEmpty then none
  else some (input.dropWhile isMultispaceChar, ())

/-- Embeds nom none_of: one character outside the given set. -/
def none_of (cs : List Char) : P Char := fun input =>
  match input with
  | [] => none
  | c :: rest => if c ∈ cs then none else some (rest, c)

/-- Embeds nom alt of two branches: the second runs when the first
fails recoverably. -/
def alt2 {α : Type} (p q : P α) : P α := fun input =>
  match p input with
  | some r => some r
  | none => q input

/-- Embeds nom alt of four branches. -/
def alt4 {α : Type} (p q r s : P α) : P α :=
  alt2 p (alt2 q (alt2 r s))

/-- Embeds nom opt: a failure becomes none without consuming. -/
def optP {α : Type} (p : P α) : P (Option α) := fun input =>
  match p input with
  | some (rest, a) => some (rest, some a)
  | none => some (input, none)

def many0Go {α : Type} (p : P α) : Nat → P (List α)
  | 0 => fun input => some (input, [])
  | fuel + 1 => fun input =>
      match p input with
      | none => some (input, [])
      | some (rest, a) =>
          if rest.length < input.length then
            match many0Go p fuel rest with
            | some (rest2, as) => some (rest2, a :: as)
            | none => none
          else none

/-- Embeds nom many0: repeat until the first recoverable failure. An
iteration that consumes nothing is the nom infinite loop error; the
fuel, one more than the input length, never runs out because every
kept iteration consumes at least one character. -/
def many0 {α : Type} (p : P α) : P (List α) := fun input =>
  many0Go p (input.length + 1) input

/-- Embeds nom many1: like many0 but at least one repetition. -/
def many1 {α : Type} (p : P α) : P (List α) := fun input =>
  match many0 p input with
  | some (rest, a :: as) => some (rest, a :: as)
  | _ => none

def take_untilGo (s : List Char) : List Char → List Char → Option (List Char × List Char)
  | acc, input =>
      if s.isPrefixOf input then some (input, acc.reverse)
      else
        match input with
        | [] => none
        | c :: rest => take_untilGo s (c :: acc) rest
termination_by acc input => input.length

/-- Embeds nom take_until: everything before the first occurrence of
the delimiter, failing when the delimiter never occurs. -/
def take_until (s : List Char) : P (List Char) := fun input =>
  take_untilGo s [] input

/-- The single quote character, written by code point. -/
def squoteChar : Char := Char.ofNat 39

/-- Embeds enum XMLNode (src/parsexml.rs lines 42-49): element with
name, attributes and content, attribute, text, processing instruction
and comment. -/
inductive XMLNodeM where
  | Element : QualifiedName → List XMLNodeM → List XMLNodeM → XMLNodeM
  | Attribute : QualifiedName → ValueM → XMLNodeM
  | Text : ValueM → XMLNodeM
  | PI : String → ValueM → XMLNodeM
  | Comment : ValueM → XMLNodeM

/-- Embeds struct XMLDocument (src/parsexml.rs lines 36-40). -/
structure XMLDocM where
  prologue : List XMLNodeM
  content : List XMLNodeM
  epilogue : List XMLNodeM

namespace parsexml

/-- Modelled from the spec: the NCName start character (crate
parsecommon is outside the embedded sources): a letter or an
underscore. -/
def isNCNameStartChar (c : Char) : Bool := c.isAlpha || c = '_'

/-- Modelled from the spec: an NCName continuation character: letter,
digit, hyphen, dot or underscore. -/
def isNCNameChar (c : Char) : Bool := c.isAlphanum || c = '_' || c = '-' || c = '.'

/-- Modelled from the spec: the NCName production, a non colonised
name token. -/
def ncname : P String := fun input =>
  match input with
  | [] => none
  | c :: rest =>
      if isNCNameStartChar c then
        some (rest.dropWhile isNCNameChar, String.mk (c :: rest.takeWhile isNCNameChar))
      else none

/-- Modelled from the spec: the Name production used for processing
instruction targets, taken as an NCName here. -/
def nameP : P String := ncname

/-- Embeds fn unprefixed_name (src/parsexml.rs lines 304-312). -/
def unprefixed_name : P QualifiedName := do
  let localpart ← ncname
  pure (QualifiedName.mk none none localpart)

/-- Embeds fn prefixed_name (src/parsexml.rs lines 313-325). -/
def prefixed_name : P QualifiedName := do
  let p ← ncname
  let _ ← tagP [':']
  let localpart ← ncname
  pure (QualifiedName.mk none (some p) localpart)

/-- Embeds fn qualname (src/parsexml.rs lines 297-303): the prefixed
form first. -/
def qualname : P QualifiedName := alt2 prefixed_name unprefixed_name

/-- Embeds fn string_single (src/parsexml.rs lines 166-176). -/
def string_single : P String := do
  let _ ← tagP [squoteChar]
  let v ← many0 (none_of [squoteChar])
  let _ ← tagP [squoteChar]
  pure (String.mk v)

/-- Embeds fn string_double (src/parsexml.rs lines 177-187). -/
def string_double : P String := do
  let _ ← tagP ['"']
  let v ← many0 (none_of ['"'])
  let _ ← tagP ['"']
  pure (String.mk v)

/-- Embeds fn delimited_string (src/parsexml.rs lines 159-165). -/
def delimited_string : P String := alt2 string_single string_double

/-- Embeds fn attribute (src/parsexml.rs lines 142-158). -/
def attributeRule : P XMLNodeM := do
  let _ ← multispace1
  let n ← qualname
  let _ ← multispace0
  let _ ← tagP ['=']
  let _ ← multispace0
  let s ← delimited_string
  pure (XMLNodeM.Attribute n (ValueM.str s))

/-- Embeds fn chardata (src/parsexml.rs lines 286-294): one or more
characters outside markup. -/
def chardata : P String := do
  let v ← many1 (none_of ['<', '&'])
  pure (String.mk v)

/-- Embeds fn reference (src/parsexml.rs lines 228-236), a stub that
only matches its placeholder text. -/
def reference : P XMLNodeM := do
  let _ ← tagP ("not yet implemented".toList)
  pure (XMLNodeM.Text (ValueM.str "not yet implemented"))

/-- Embeds fn processing_instruction (src/parsexml.rs lines 239-256). -/
def processing_instruction : P XMLNodeM := do
  let _ ← tagP ['<', '?']
  let _ ← multispace0
  let n ← nameP
  let _ ← multispace0
  let v ← take_until ['?', '>']
  let _ ← tagP ['?', '>']
  pure (XMLNodeM.PI n (ValueM.str (String.mk v)))

/-- Embeds fn comment (src/parsexml.rs lines 259-271). -/
def comment : P XMLNodeM := do
  let _ ← tagP ['<', '!', '-', '-']
  let v ← take_until ['-', '-']
  let _ ← tagP ['-', '-', '>']
  pure (XMLNodeM.Comment (ValueM.str (String.mk v)))

/-- Embeds fn emptyelem (src/parsexml.rs lines 125-140). -/
def emptyelem : P XMLNodeM := do
  let _ ← tagP ['<']
  let _ ← multispace0
  let n ← qualname
  let a ← many0 attributeRule
  let _ ← multispace0
  let _ ← tagP ['/', '>']
  pure (XMLNodeM.Element n a [])

/-- The closure of fn content: the optional leading character data,
then each parsed node with its optional trailing character data. -/
def assembleContent (c : Option String) (v : List (XMLNodeM × Option String)) :
    List XMLNodeM :=
  (match c with
   | some s => [XMLNodeM.Text (ValueM.str s)]
   | none => []) ++
  v.flatMap (fun wd =>
    match wd.2 with
    | some s => [wd.1, XMLNodeM.Text (ValueM.str s)]
    | none => [wd.1])

/-- Embeds fn content (src/parsexml.rs lines 190-224), with the
element production passed in to untie the mutual recursion. -/
def contentWith (elementF : P XMLNodeM) : P (List XMLNodeM) := do
  let c ← optP chardata
  let v ← many0 (do
      let w ← alt4 elementF reference processing_instruction comment
      let d ← optP chardata
      pure (w, d))
  pure (assembleContent c v)

/-- Embeds fn taggedelem (src/parsexml.rs lines 100-122). The closing
tag name is parsed and discarded, exactly as in the source, where the
match against the opening name is marked as a TODO. -/
def taggedelemWith (elementF : P XMLNodeM) : P XMLNodeM := do
  let _ ← tagP ['<']
  let _ ← multispace0
  let n ← qualname
  let a ← many0 attributeRule
  let _ ← multispace0
  let _ ← tagP ['>']
  let c ← contentWith elementF
  let _ ← tagP ['<', '/']
  let _ ← multispace0
  let _e ← qualname
  let _ ← multispace0
  let _ ← tagP ['>']
  pure (XMLNodeM.Element n a c)

/-- Embeds fn element (src/parsexml.rs lines 83-95): an empty element
or a tagged element; the map of the source is the identity. The fuel
bounds the element nesting depth; parse supplies one more than the
input length, which nested elements, each consuming characters, never
reach. -/
def element : Nat → P XMLNodeM
  | 0 => fun _ => none
  | fuel + 1 => alt2 emptyelem (taggedelemWith (element fuel))

/-- Embeds fn content at a given nesting depth. -/
def content (fuel : Nat) : P (List XMLNodeM) := contentWith (element fuel)

/-- Embeds fn prolog (src/parsexml.rs lines 71-80), a stub that only
matches its placeholder text. -/
def prolog : P (List XMLNodeM) := do
  let _ ← tagP ("not yet implemented".toList)
  pure []

/-- Embeds fn misc (src/parsexml.rs lines 274-283), a stub that only
matches its placeholder text. -/
def misc : P (List XMLNodeM) := do
  let _ ← tagP ("not yet implemented".toList)
  pure []

/-- Embeds fn document (src/parsexml.rs lines 52-68). -/
def document (fuel : Nat) : P XMLDocM := do
  let p ← optP prolog
  let e ← element fuel
  let m ← optP misc
  pure (XMLDocM.mk (p.getD []) [e] (m.getD []))

/-- Embeds pub fn parse (src/parsexml.rs lines 327-340): run the
document production, requiring the whole input to be consumed; every
failure carries ErrorKind::Unknown. -/
def parse (input : List Char) : Except ErrorM XMLDocM :=
  match document (input.length + 1) input with
  | some (rest, value) =>
      if rest.isEmpty then Except.ok value
      else Except.error ⟨ErrorKind.unknown, "extra characters after expression"⟩
  | none => Except.error ⟨ErrorKind.unknown, "parser error"⟩

end parsexml

/-- C1, code divergence: the parser accepts an element whose end tag
name differs from its start tag name — the name match in taggedelem is
a TODO in the source — and returns a document containing that element,
named by the start tag; no NotWellFormed error arises. -/
theorem parse_accepts_mismatched_endtag :
    parsexml.parse ("<a></b>".toList) =
      Except.ok (XMLDocM.mk [] [XMLNodeM.Element ⟨none, none, "a"⟩ [] []] []) := by
  rfl

/-! ## A to B conversion (src/rctree.rs, TryFrom ADoc for RBDoc) -/

/-- RWNode::name for RANode (src/rctree.rs lines 244-249): the name of
the node or an empty QualifiedName. -/
def ANodeM.rwname (n : ANodeM) : QualifiedName :=
  (n.name).getD ⟨none, none, ""⟩

/-- RWNode::value for RANode (src/rctree.rs lines 250-255): the value
of the node or an empty string value. -/
def ANodeM.rwvalue (n : ANodeM) : ValueM :=
  (n.value).getD (ValueM.str "")

mutual

/-- Embeds BNode::from_anode (src/rctree.rs lines 522-597). The weak
document and parent pointers add nothing to the resulting tree shape
and are dropped here; the unwrap of a missing processing instruction
target is a panic, modelled as none. The entities argument is
accepted and, the reference branch of the source being the
unimplemented catch-all, never read: references and every other
unhandled node type become childless Unknown nodes. -/
def from_anode (ent : List (QualifiedName × List XMLNodeM)) :
    ANodeM → Option BTreeM
  | ANodeM.mk t cs attrs nm v pn d r =>
      match t with
      | NodeTypeM.element =>
          match from_anode_list ent cs with
          | some bs =>
              some (BTreeM.mk NodeTypeM.element
                (some ((ANodeM.mk t cs attrs nm v pn d r).rwname)) none bs)
          | none => none
      | NodeTypeM.attribute =>
          some (BTreeM.mk NodeTypeM.attribute
            (some ((ANodeM.mk t cs attrs nm v pn d r).rwname))
            (some ((ANodeM.mk t cs attrs nm v pn d r).rwvalue)) [])
      | NodeTypeM.text =>
          some (BTreeM.mk NodeTypeM.text none
            (some ((ANodeM.mk t cs attrs nm v pn d r).rwvalue)) [])
      | NodeTypeM.processingInstruction =>
          match pn with
          | some target =>
              some (BTreeM.mk NodeTypeM.processingInstruction
                (some ⟨none, none, target⟩)
                (some ((ANodeM.mk t cs attrs nm v pn d r).rwvalue)) [])
          | none => none
      | NodeTypeM.comment =>
          some (BTreeM.mk NodeTypeM.comment none
            (some ((ANodeM.mk t cs attrs nm v pn d r).rwvalue)) [])
      | _ => some (BTreeM.mk NodeTypeM.unknown none none [])

/-- The recursive conversion of a child list, in order. -/
def from_anode_list (ent : List (QualifiedName × List XMLNodeM)) :
    List ANodeM → Option (List BTreeM)
  | [] => some []
  | c :: rest =>
      match from_anode ent c, from_anode_list ent rest with
      | some b, some bs => some (b :: bs)
      | _, _ => none

end

/-- Lookup in the entity map keyed by QualifiedName; the source
HashMap compares keys with PartialEq, that is with qnEq. -/
def entLookup (ent : List (QualifiedName × List XMLNodeM)) (n : QualifiedName) :
    Option (List XMLNodeM) :=
  (ent.find? (fun p => qnEq p.1 n)).map (fun p => p.2)

/-- Embeds the entity collection loop of the TryFrom conversion
(src/rctree.rs lines 462-476): a prologue node of type Unknown carries
a DTD declaration (the unwrap of a missing one is a panic, modelled as
none in the outer Option); its raw text is parsed with the content
production, a parse failure, leftover input, or a duplicate name
failing the conversion with an ErrorKind::Unknown error. -/
def collectEntities :
    List ANodeM → List (QualifiedName × List XMLNodeM) →
      Option (Except ErrorM (List (QualifiedName × List XMLNodeM)))
  | [], ent => some (Except.ok ent)
  | p :: rest, ent =>
      if p.node_type = NodeTypeM.unknown then
        match p.dtd with
        | none => none
        | some (DTDDeclM.generalEntity n c) =>
            match parsexml.content (c.toList.length + 1) c.toList with
            | none => some (Except.error ⟨ErrorKind.unknown, "parser error"⟩)
            | some (restc, e) =>
                if restc.length ≠ 0 then
                  some (Except.error
                    ⟨ErrorKind.unknown, "unable to parse general entity"⟩)
                else
                  match entLookup ent n with
                  | some _ =>
                      some (Except.error
                        ⟨ErrorKind.unknown, "general entity already defined"⟩)
                  | none => collectEntities rest (ent ++ [(n, e)])
      else collectEntities rest ent

/-- Embeds struct XMLDecl (src/rctree.rs lines 325-330). -/
structure XMLDeclM where
  version : String
  encoding : Option String
  standalone : Option String
deriving DecidableEq

/-- Embeds struct ADoc (src/rctree.rs lines 28-33). -/
structure ADocM where
  xmldecl : Option XMLDeclM
  prologue : List ANodeM
  content : List ANodeM
  epilogue : List ANodeM

/-- Embeds struct BDoc (src/rctree.rs lines 400-405): the node list of
the navigable document. -/
structure BDocM where
  nodes : List BTreeM

/-- Embeds impl TryFrom ADoc for RBDoc (src/rctree.rs lines 455-508):
collect the general entities of the prologue, then convert prologue,
content and epilogue in order into the node list of the new document.
The outer Option models a panic inside the conversion. -/
def tryFromADoc (a : ADocM) : Option (Except ErrorM BDocM) :=
  match collectEntities a.prologue [] with
  | none => none
  | some (Except.error e) => some (Except.error e)
  | some (Except.ok ent) =>
      match from_anode_list ent a.prologue, from_anode_list ent a.content,
          from_anode_list ent a.epilogue with
      | some p, some c, some ep => some (Except.ok (BDocM.mk (p ++ c ++ ep)))
      | _, _, _ => none

/-- C2, code divergence: the conversion neither expands entity
references nor rejects undeclared ones. With no declaration in scope a
reference node converts to a childless Unknown node and the conversion
succeeds, no UnknownEntity error arising; with the entity declared and
collected, the reference node still converts to the same childless
Unknown node instead of the parsed replacement text, from_anode never
reading the entity map. -/
theorem from_anode_reference_unexpanded :
    (tryFromADoc (ADocM.mk none []
        [ANodeM.mk NodeTypeM.unknown [] [] none none none none
          (some ⟨none, none, "e"⟩)] []) =
      some (Except.ok (BDocM.mk [BTreeM.mk NodeTypeM.unknown none none []]))) ∧
    (tryFromADoc (ADocM.mk none
        [ANodeM.mk NodeTypeM.unknown [] [] none none none
          (some (DTDDeclM.generalEntity ⟨none, none, "e"⟩ "x")) none]
        [ANodeM.mk NodeTypeM.unknown [] [] none none none none
          (some ⟨none, none, "e"⟩)] []) =
      some (Except.ok (BDocM.mk [BTreeM.mk NodeTypeM.unknown none none [],
        BTreeM.mk NodeTypeM.unknown none none []]))) := by
  exact ⟨rfl, rfl⟩

/-- Witness for C9: a node at depth two yields exactly two ancestors
and the chain ends at the top level location. -/
theorem ancestor_iter_finite_witness :
    (ancestorsIter ⟨[], [0, 1]⟩).length = 2 ∧
    (ancestorsIter ⟨[], [0, 1]⟩).getLast? = some ⟨[], []⟩ := by
  have h := ancestor_iter_finite [] [0, 1]
  exact ⟨h.2.1, (h.2.2 (by simp)).1⟩
